import Mathlib

/-!
Shallow embedding, in Lean, of the tree-matching, position-location and
selection-projection code of `src/ast.ts` from the edit-utils repository, together
with theorems checking the repository's specification against it.

Conventions of the embedding:
* `vscode.Position` becomes `Pos` (two natural numbers, row then column), and the
  vscode comparison methods become the corresponding boolean row-then-column tests.
* tree-sitter's `TreeNode` becomes an inductive tree carrying the type tag, the two
  positions and the child list; parent pointers are not stored, instead the position
  locator threads the chain of ancestors that the source walks through `node.parent`.
* JavaScript arrays that can hold `undefined` slots (`matches[index]` out of range in
  `matchMultipleNodes`) are embedded as `List (Option TreeNode)`, `none` standing for
  `undefined`.
* The `Selector` type, `dsl.isMultiple` and `util.sliceArray` live in files that are
  not among the sources; they are modelled from the specification and marked as such
  in their doc comments.
-/

namespace EditUtils

/-- Zero-based text position (row, column), embedding `vscode.Position`. -/
structure Pos where
  row : Nat
  column : Nat
  deriving DecidableEq, Repr

/-- vscode `Position.isBefore`: strict row-then-column order. -/
def Pos.isBefore (a b : Pos) : Bool :=
  decide (a.row < b.row) || (decide (a.row = b.row) && decide (a.column < b.column))

/-- vscode `Position.isAfter`. -/
def Pos.isAfter (a b : Pos) : Bool :=
  b.isBefore a

/-- vscode `Position.isBeforeOrEqual`. -/
def Pos.isBeforeOrEqual (a b : Pos) : Bool :=
  decide (a.row < b.row) || (decide (a.row = b.row) && decide (a.column ≤ b.column))

/-- vscode `Position.isAfterOrEqual`. -/
def Pos.isAfterOrEqual (a b : Pos) : Bool :=
  b.isBeforeOrEqual a

/-- Row-then-column (lexicographic) order on positions, stated as a proposition. -/
def Pos.le (a b : Pos) : Prop :=
  a.row < b.row ∨ (a.row = b.row ∧ a.column ≤ b.column)

/-- Concrete syntax tree node: type tag, start and end position, ordered children.
Embeds the external `TreeNode` of `src/types.d.ts`; the `parent` back-pointer is not
stored (the ancestor chain is threaded explicitly where the source walks parents). -/
inductive TreeNode where
  | node (type : String) (startPosition : Pos) (endPosition : Pos)
      (children : List TreeNode)
  deriving Repr

/-- Type tag of a node. -/
def TreeNode.type : TreeNode → String
  | .node t _ _ _ => t

/-- Start position of a node's span. -/
def TreeNode.startPosition : TreeNode → Pos
  | .node _ s _ _ => s

/-- End position of a node's span. -/
def TreeNode.endPosition : TreeNode → Pos
  | .node _ _ e _ => e

/-- Ordered child list of a node. -/
def TreeNode.children : TreeNode → List TreeNode
  | .node _ _ _ c => c

/-- Slice modifier of a selector step: Python slice fields, per spec §3. -/
structure Slice where
  start : Option Int
  stop : Option Int
  step : Option Int
  deriving DecidableEq, Repr

/-- Modelled from the spec: the `Selector` type is declared in `src/dsl.ts`, which is
not among the sources. Spec §3 gives its fields — `name : string | null`,
`isWildcard`, `isOptional`, `child : Selector | null`, `index : integer | null`,
`slice : {start, stop, step} | null` — says a bracket modifier with no contents marks
the step as "gather all" (`multipleMarked` here), and says alternation "stores the set
of branch Selectors directly in the step" (`branches`; a plain step has no branches)
while negation wraps an inner atom (`negated`). -/
inductive Selector where
  | mk (name : Option String) (isWildcard : Bool) (isOptional : Bool)
      (index : Option Int) (slice : Option Slice) (multipleMarked : Bool)
      (branches : List Selector) (negated : Option Selector)
      (child : Option Selector)
  deriving Repr

/-- The `name` field of a selector step. -/
def Selector.name : Selector → Option String
  | .mk n _ _ _ _ _ _ _ _ => n

/-- The `isWildcard` field of a selector step. -/
def Selector.isWildcard : Selector → Bool
  | .mk _ w _ _ _ _ _ _ _ => w

/-- The `isOptional` field of a selector step. -/
def Selector.isOptional : Selector → Bool
  | .mk _ _ o _ _ _ _ _ _ => o

/-- The `index` field of a selector step. -/
def Selector.index : Selector → Option Int
  | .mk _ _ _ i _ _ _ _ _ => i

/-- The `slice` field of a selector step. -/
def Selector.slice : Selector → Option Slice
  | .mk _ _ _ _ s _ _ _ _ => s

/-- The "gather all" marker (empty trailing brackets) of a selector step. -/
def Selector.multipleMarked : Selector → Bool
  | .mk _ _ _ _ _ m _ _ _ => m

/-- The alternation branches of a selector step (empty for a plain step). -/
def Selector.branches : Selector → List Selector
  | .mk _ _ _ _ _ _ b _ _ => b

/-- The negated inner atom of a selector step (`none` for a plain step). -/
def Selector.negated : Selector → Option Selector
  | .mk _ _ _ _ _ _ _ g _ => g

/-- The next step of the selector chain (`none` marks a leaf step). -/
def Selector.child : Selector → Option Selector
  | .mk _ _ _ _ _ _ _ _ c => c

/-- Modelled from the spec: `dsl.isMultiple` is declared in `src/dsl.ts`, which is not
among the sources. Spec §3: `isMultiple` is derived, "signaled by trailing `[]`, `[i]`,
or `[a:b:c]` syntax on that step". -/
def isMultiple (s : Selector) : Bool :=
  s.multipleMarked || s.index.isSome || s.slice.isSome

/-- Indices enumerated by a Python slice: from `start`, stepping by `step`, while
strictly before `stop` (positive step) or strictly after it (negative step); the fuel
argument bounds the recursion and is chosen large enough by `sliceArray`. -/
def sliceIndices (fuel : Nat) (start stop step : Int) : List Int :=
  match fuel with
  | 0 => []
  | f + 1 =>
    if (0 < step ∧ start < stop) ∨ (step < 0 ∧ stop < start) then
      start :: sliceIndices f (start + step) stop step
    else []

/-- Modelled from the spec: `sliceArray` is declared in `src/util.ts`, which is not
among the sources. Spec §3/§4.3: Python slice semantics — half-open, negative
endpoints count from the end, `step` may be negative (reversing order). -/
def sliceArray (xs : List α) (start stop step : Option Int) : List α :=
  let n : Int := xs.length
  let st := step.getD 1
  if st = 0 then []
  else
    let norm : Int → Int := fun i => if i < 0 then n + i else i
    let lo : Int := if 0 < st then 0 else -1
    let hi : Int := if 0 < st then n else n - 1
    let first := max lo (min hi (norm (start.getD (if 0 < st then 0 else n - 1))))
    let last := max lo (min hi (norm (stop.getD (if 0 < st then n else -n - 1))))
    (sliceIndices (xs.length + 1) first last st).filterMap fun i => xs[i.toNat]?

/-- JavaScript array read `xs[i]`: the stored element when `0 ≤ i < length`,
`undefined` (`none`) otherwise; the stored elements are themselves possibly
`undefined`. -/
def jsGet (xs : List (Option TreeNode)) (i : Int) : Option TreeNode :=
  if 0 ≤ i then xs.getD i.toNat none else none

mutual
/-- Embeds `matchSingleNode` from `src/ast.ts`. The single boolean the source tests is
`selector.isWildcard || selector.name === node.type`; `undefined` slots in the
returned array are modelled as `none`. -/
def matchSingleNode (node : TreeNode) (selector : Selector) : List (Option TreeNode) :=
  let isMatch := selector.isWildcard || selector.name == some node.type
  match h : selector.child with
  | none => if isMatch then [some node] else []
  | some childSelector =>
    if isMatch then
      if isMultiple childSelector then
        matchMultipleNodes node selector childSelector
      else
        firstChildMatch node.children childSelector
    else if selector.isOptional then
      matchSingleNode node childSelector
    else
      []
termination_by (sizeOf selector, 0)
decreasing_by
  all_goals
    refine Prod.Lex.left _ _ ?_
    rcases selector with ⟨n, w, o, i, sl, m, b, g, ch⟩
    rcases ch with _ | c <;> simp only [Selector.child, Option.some.injEq,
      reduceCtorEq] at h
    subst h
    simp only [Selector.mk.sizeOf_spec, Option.some.sizeOf_spec]
    omega

/-- The child loop of `matchSingleNode`: the first child whose recursive match result
is non-empty wins; later siblings are not examined. -/
def firstChildMatch (children : List TreeNode) (childSelector : Selector) :
    List (Option TreeNode) :=
  match children with
  | [] => []
  | child :: rest =>
    let childResult := matchSingleNode child childSelector
    if childResult.length > 0 then childResult
    else firstChildMatch rest childSelector
termination_by (sizeOf childSelector, 1 + sizeOf children)
decreasing_by
  · exact Prod.Lex.right _ (by omega)
  · exact Prod.Lex.right _ (by simp only [List.cons.sizeOf_spec]; omega)

/-- The gathering loop of `matchMultipleNodes`: recursive match results of all direct
children, concatenated in child order. -/
def gatherChildMatches (children : List TreeNode) (childSelector : Selector) :
    List (Option TreeNode) :=
  match children with
  | [] => []
  | child :: rest =>
    matchSingleNode child childSelector ++ gatherChildMatches rest childSelector
termination_by (sizeOf childSelector, 1 + sizeOf children)
decreasing_by
  · exact Prod.Lex.right _ (by omega)
  · exact Prod.Lex.right _ (by simp only [List.cons.sizeOf_spec]; omega)

/-- Embeds `matchMultipleNodes` from `src/ast.ts`, including the JavaScript truthiness
of `if (childSelector.index)` — an index of `0` is treated like an absent index — and
the out-of-range read `matches[index]` producing a one-element array holding
`undefined` (`none`). -/
def matchMultipleNodes (parent : TreeNode) (parentSelector : Selector)
    (childSelector : Selector) : List (Option TreeNode) :=
  let gathered := gatherChildMatches parent.children childSelector
  let indexed :=
    match childSelector.index with
    | none => gathered
    | some i =>
      if i = 0 then gathered
      else
        let index := if i < 0 then (gathered.length : Int) - 1 + i else i
        [jsGet gathered index]
  match childSelector.slice with
  | none => indexed
  | some s => sliceArray indexed s.start s.stop s.step
termination_by (sizeOf childSelector, 2 + sizeOf parent)
decreasing_by
  · exact Prod.Lex.right _ (by
      rcases parent with ⟨ty, s, e, cs⟩
      simp only [TreeNode.children, TreeNode.node.sizeOf_spec]
      omega)
end

mutual
/-- Embeds the generator `walk` from `src/ast.ts`: pre-order traversal, the node
itself first, then each child's subtree left to right. -/
def walk : TreeNode → List TreeNode
  | .node t s e cs => .node t s e cs :: walkList cs

/-- Pre-order traversal of a forest, left to right. -/
def walkList : List TreeNode → List TreeNode
  | [] => []
  | c :: cs => walk c ++ walkList cs
end

mutual
/-- Embeds the generator `walkChildrenFirst` from `src/ast.ts`: post-order traversal,
each child's subtree left to right, then the node itself. -/
def walkChildrenFirst : TreeNode → List TreeNode
  | .node t s e cs => walkChildrenFirstList cs ++ [.node t s e cs]

/-- Post-order traversal of a forest, left to right. -/
def walkChildrenFirstList : List TreeNode → List TreeNode
  | [] => []
  | c :: cs => walkChildrenFirst c ++ walkChildrenFirstList cs
end

/-- Embeds `doesNodeContainPosition` from `src/ast.ts`: the position lies inside the
node's span, inclusively on both ends. -/
def doesNodeContainPosition (node : TreeNode) (position : Pos) : Bool :=
  position.isAfterOrEqual node.startPosition && position.isBeforeOrEqual node.endPosition

/-- Embeds `findNodeAtPosition` from `src/ast.ts`: the first node of the post-order
traversal of the tree whose span contains the position. -/
def findNodeAtPosition (position : Pos) (root : TreeNode) : Option TreeNode :=
  (walkChildrenFirst root).find? fun n => doesNodeContainPosition n position

mutual
/-- The position search of `findNodeAtPosition`, additionally returning the found
node's chain of ancestors, innermost first — the chain the source's `walkParents`
generator produces by following `node.parent` pointers, threaded explicitly here
because the embedded tree stores no parent links. Its first component agrees with
`findNodeAtPosition` (theorem `findNodeAtPositionWithAncestors_fst` below). -/
def findNodeAtPositionWithAncestors (position : Pos) (ancestors : List TreeNode) :
    TreeNode → Option (TreeNode × List TreeNode)
  | .node t s e cs =>
    match findNodeAtPositionWithAncestorsList position (.node t s e cs :: ancestors) cs with
    | some r => some r
    | none =>
      if doesNodeContainPosition (.node t s e cs) position then
        some (.node t s e cs, ancestors)
      else none

/-- The forest companion of `findNodeAtPositionWithAncestors`. -/
def findNodeAtPositionWithAncestorsList (position : Pos) (ancestors : List TreeNode) :
    List TreeNode → Option (TreeNode × List TreeNode)
  | [] => none
  | c :: cs =>
    match findNodeAtPositionWithAncestors position ancestors c with
    | some r => some r
    | none => findNodeAtPositionWithAncestorsList position ancestors cs
end

/-- Direction argument of `searchFromPosition`. -/
inductive Direction where
  | up
  | down
  | before
  | after
  deriving DecidableEq, Repr

/-- The accumulator update of the `"up"` branch of `searchFromPosition`: a non-empty
match result overwrites the matches recorded so far, an empty one is ignored. -/
def upStep (selector : Selector) (highestMatches : List (Option TreeNode))
    (parent : TreeNode) : List (Option TreeNode) :=
  let ms := matchSingleNode parent selector
  if ms.length > 0 then ms else highestMatches

/-- Embeds `searchFromPosition` from `src/ast.ts`. For `"up"` the checked chain is
`[node].concat(Array.from(walkParents(node))).slice(0, -1)` — the located node
followed by its ancestors innermost first, with the last (outermost) element dropped —
and the loop keeps the most recent non-empty `matchSingleNode` result. For `"down"`,
`"before"` and `"after"` the source assigns `iterFn` (and, for the linear scans,
re-wraps `condition`) but never uses either and falls through to `return []`. -/
def searchFromPosition (position : Pos) (root : TreeNode) (direction : Direction)
    (condition : TreeNode → Bool) (selector : Selector) (count : Nat := 1) :
    List (Option TreeNode) :=
  match findNodeAtPositionWithAncestors position [] root with
  | none => []
  | some (node, ancestors) =>
    match direction with
    | .up => ((node :: ancestors).dropLast).foldl (upStep selector) []
    | .down => []
    | .before => []
    | .after => []

/-- Directional text selection, embedding `vscode.Selection` (anchor and active end). -/
structure Selection where
  anchor : Pos
  active : Pos
  deriving DecidableEq, Repr

/-- One accumulator update of the loop in `selectionFromNodeArray` for the running
minimum: `if (x === null || p.isBefore(x)) x = p`. -/
def updMin (acc : Option Pos) (p : Pos) : Option Pos :=
  match acc with
  | none => some p
  | some a => if p.isBefore a then some p else some a

/-- One accumulator update of the loop in `selectionFromNodeArray` for the running
maximum: `if (x === null || p.isAfter(x)) x = p`. -/
def updMax (acc : Option Pos) (p : Pos) : Option Pos :=
  match acc with
  | none => some p
  | some a => if p.isAfter a then some p else some a

/-- One iteration of the loop in `selectionFromNodeArray`: with `reverse` the anchor
tracks the maximal end position and the active end the minimal start position,
without it the roles are exchanged. -/
def selStep (reverse : Bool) (acc : Option Pos × Option Pos) (node : TreeNode) :
    Option Pos × Option Pos :=
  let startPosition := node.startPosition
  let endPosition := node.endPosition
  if reverse then
    (updMax acc.1 endPosition, updMin acc.2 startPosition)
  else
    (updMin acc.1 startPosition, updMax acc.2 endPosition)

/-- Embeds `selectionFromNodeArray` from `src/ast.ts`; the thrown
`Error("At least one node is required for a selection")` becomes `Except.error`. -/
def selectionFromNodeArray (nodes : List TreeNode) (reverse : Bool := false) :
    Except String Selection :=
  match nodes.foldl (selStep reverse) (none, none) with
  | (some anchor, some active) => .ok ⟨anchor, active⟩
  | _ => .error "At least one node is required for a selection"

/-- Example: a childless node of type `a`. -/
def exA : TreeNode := .node "a" ⟨0, 0⟩ ⟨0, 5⟩ []

/-- Example: the leaf selector `a`. -/
def selA : Selector := .mk (some "a") false false none none false [] none none

/-- Example: an alternation step whose single branch is the leaf selector `a`, per
spec §3 (a step with no own name that stores its branch selectors directly). -/
def altSelA : Selector := .mk none false false none none false [selA] none none

/-- Example: a childless node of type `a` spanning the same range as its parent. -/
def exChild2 : TreeNode := .node "a" ⟨0, 0⟩ ⟨0, 10⟩ []

/-- Example: a root node of type `a` with one child of type `a`. -/
def exRoot2 : TreeNode := .node "a" ⟨0, 0⟩ ⟨0, 10⟩ [exChild2]

/-- Example: leaf selector for type `pair` carrying an index modifier. -/
def pairSelIdx (i : Int) : Selector :=
  .mk (some "pair") false false (some i) none false [] none none

/-- Example: selector step `dictionary` chaining into a given child step. -/
def dictSel (c : Selector) : Selector :=
  .mk (some "dictionary") false false none none false [] none (some c)

/-- Example: first `pair` child of the two-pair dictionary. -/
def q1 : TreeNode := .node "pair" ⟨1, 0⟩ ⟨1, 5⟩ []

/-- Example: second `pair` child of the two-pair dictionary. -/
def q2 : TreeNode := .node "pair" ⟨2, 0⟩ ⟨2, 5⟩ []

/-- Example: a `dictionary` node with two `pair` children. -/
def exDict2 : TreeNode := .node "dictionary" ⟨0, 0⟩ ⟨3, 0⟩ [q1, q2]

/-- Example: first `pair` child of the four-pair dictionary. -/
def p1 : TreeNode := .node "pair" ⟨1, 0⟩ ⟨1, 5⟩ []

/-- Example: second `pair` child of the four-pair dictionary. -/
def p2 : TreeNode := .node "pair" ⟨2, 0⟩ ⟨2, 5⟩ []

/-- Example: third `pair` child of the four-pair dictionary. -/
def p3 : TreeNode := .node "pair" ⟨3, 0⟩ ⟨3, 5⟩ []

/-- Example: fourth `pair` child of the four-pair dictionary. -/
def p4 : TreeNode := .node "pair" ⟨4, 0⟩ ⟨4, 5⟩ []

/-- Example: a `dictionary` node with four `pair` children, as in the spec's
`"dictionary.pair[2]"` scenario. -/
def exDict4 : TreeNode := .node "dictionary" ⟨0, 0⟩ ⟨5, 0⟩ [p1, p2, p3, p4]

/-- Example: the nested `argument` node of the spec's locator scenario,
spanning `[0,5]`–`[0,10]`. -/
def exArg : TreeNode := .node "argument" ⟨0, 5⟩ ⟨0, 10⟩ []

/-- Example: the enclosing `call` node of the spec's locator scenario,
spanning `[0,0]`–`[0,20]`. -/
def exCall : TreeNode := .node "call" ⟨0, 0⟩ ⟨0, 20⟩ [exArg]

theorem Pos.isBefore_iff {a b : Pos} :
    a.isBefore b = true ↔ (a.row < b.row ∨ (a.row = b.row ∧ a.column < b.column)) := by
  simp [Pos.isBefore]

theorem Pos.isBeforeOrEqual_iff {a b : Pos} : a.isBeforeOrEqual b = true ↔ a.le b := by
  simp [Pos.isBeforeOrEqual, Pos.le]

theorem Pos.le_refl (a : Pos) : a.le a := by
  simp [Pos.le]

theorem Pos.le_trans {a b c : Pos} (h1 : a.le b) (h2 : b.le c) : a.le c := by
  rcases a with ⟨ar, ac⟩
  rcases b with ⟨br, bc⟩
  rcases c with ⟨cr, cc⟩
  simp only [Pos.le] at h1 h2 ⊢
  omega

theorem Pos.le_antisymm {a b : Pos} (h1 : a.le b) (h2 : b.le a) : a = b := by
  rcases a with ⟨ar, ac⟩
  rcases b with ⟨br, bc⟩
  simp only [Pos.le, Pos.mk.injEq] at h1 h2 ⊢
  omega

theorem Pos.le_of_isBefore {a b : Pos} (h : a.isBefore b = true) : a.le b := by
  rcases a with ⟨ar, ac⟩
  rcases b with ⟨br, bc⟩
  simp only [Pos.isBefore_iff] at h
  simp only [Pos.le]
  omega

theorem Pos.le_of_not_isBefore {a b : Pos} (h : a.isBefore b = false) : b.le a := by
  rcases a with ⟨ar, ac⟩
  rcases b with ⟨br, bc⟩
  simp only [Pos.isBefore, Bool.or_eq_false_iff, Bool.and_eq_false_iff,
    decide_eq_false_iff_not] at h
  simp only [Pos.le]
  omega

theorem Pos.le_of_isAfter {a b : Pos} (h : a.isAfter b = true) : b.le a :=
  Pos.le_of_isBefore h

theorem Pos.le_of_not_isAfter {a b : Pos} (h : a.isAfter b = false) : a.le b :=
  Pos.le_of_not_isBefore h

theorem doesNodeContainPosition_iff {n : TreeNode} {p : Pos} :
    doesNodeContainPosition n p = true ↔
      (n.startPosition.le p ∧ p.le n.endPosition) := by
  simp [doesNodeContainPosition, Pos.isAfterOrEqual, Bool.and_eq_true,
    Pos.isBeforeOrEqual_iff]

mutual
/-- If a post-order search over a tree finds `n`, then `n` satisfies the predicate and
no node strictly inside `n`'s subtree does: the found node is the deepest hit. -/
theorem find_walkChildrenFirst_deepest (p : TreeNode → Bool) (t n : TreeNode)
    (h : (walkChildrenFirst t).find? p = some n) :
    p n = true ∧ ∀ m ∈ walkChildrenFirstList n.children, p m = false := by
  rcases t with ⟨ty, s, e, cs⟩
  rw [walkChildrenFirst, List.find?_append] at h
  cases hcs : (walkChildrenFirstList cs).find? p with
  | some r =>
    rw [hcs] at h
    simp only [Option.or_some, Option.some.injEq] at h
    exact h ▸ find_walkChildrenFirstList_deepest p cs r hcs
  | none =>
    rw [hcs] at h
    simp only [Option.none_or, List.find?_cons] at h
    rcases hp : p (TreeNode.node ty s e cs) with _ | _
    · rw [hp] at h
      simp at h
    · rw [hp] at h
      simp only [Option.some.injEq] at h
      subst h
      refine ⟨hp, fun m hm => ?_⟩
      exact Bool.eq_false_iff.mpr
        (List.find?_eq_none.mp hcs m (by simpa [TreeNode.children] using hm))

/-- The forest companion of `find_walkChildrenFirst_deepest`. -/
theorem find_walkChildrenFirstList_deepest (p : TreeNode → Bool) (ts : List TreeNode)
    (n : TreeNode) (h : (walkChildrenFirstList ts).find? p = some n) :
    p n = true ∧ ∀ m ∈ walkChildrenFirstList n.children, p m = false := by
  match ts with
  | [] => simp [walkChildrenFirstList] at h
  | c :: cs =>
    rw [walkChildrenFirstList, List.find?_append] at h
    cases hc : (walkChildrenFirst c).find? p with
    | some r =>
      rw [hc] at h
      simp only [Option.or_some, Option.some.injEq] at h
      exact h ▸ find_walkChildrenFirst_deepest p c r hc
    | none =>
      rw [hc] at h
      simp only [Option.none_or] at h
      exact find_walkChildrenFirstList_deepest p cs n h
end

mutual
/-- The locator that threads ancestors agrees with the source's `findNodeAtPosition`
on the node it finds. -/
theorem findNodeAtPositionWithAncestors_fst (position : Pos) (ancestors : List TreeNode)
    (t : TreeNode) :
    (findNodeAtPositionWithAncestors position ancestors t).map Prod.fst =
      (walkChildrenFirst t).find? (fun n => doesNodeContainPosition n position) := by
  rcases t with ⟨ty, s, e, cs⟩
  rw [findNodeAtPositionWithAncestors, walkChildrenFirst, List.find?_append]
  rw [← findNodeAtPositionWithAncestorsList_fst position
    (TreeNode.node ty s e cs :: ancestors) cs]
  cases hcs : findNodeAtPositionWithAncestorsList position
      (TreeNode.node ty s e cs :: ancestors) cs with
  | some r => simp
  | none =>
    simp only [Option.map_none, Option.none_or, List.find?_cons]
    rcases hp : doesNodeContainPosition (TreeNode.node ty s e cs) position with _ | _ <;>
      simp [hp]

/-- The forest companion of `findNodeAtPositionWithAncestors_fst`. -/
theorem findNodeAtPositionWithAncestorsList_fst (position : Pos)
    (ancestors : List TreeNode) (ts : List TreeNode) :
    (findNodeAtPositionWithAncestorsList position ancestors ts).map Prod.fst =
      (walkChildrenFirstList ts).find? (fun n => doesNodeContainPosition n position) := by
  match ts with
  | [] => rfl
  | c :: cs =>
    rw [findNodeAtPositionWithAncestorsList, walkChildrenFirstList, List.find?_append]
    rw [← findNodeAtPositionWithAncestors_fst position ancestors c]
    cases hc : findNodeAtPositionWithAncestors position ancestors c with
    | some r =>
      simp
    | none =>
      simp only [Option.map_none, Option.none_or]
      exact findNodeAtPositionWithAncestorsList_fst position ancestors cs
end

theorem upStep_of_ne_nil {selector : Selector} {x : TreeNode}
    (acc : List (Option TreeNode)) (hx : matchSingleNode x selector ≠ []) :
    upStep selector acc x = matchSingleNode x selector := by
  simp only [upStep]
  rw [if_pos (List.length_pos.mpr hx)]

theorem upStep_of_nil {selector : Selector} {x : TreeNode}
    (acc : List (Option TreeNode)) (hx : matchSingleNode x selector = []) :
    upStep selector acc x = acc := by
  simp [upStep, hx]

theorem upFold_all_empty (selector : Selector) (l : List TreeNode)
    (acc : List (Option TreeNode)) (h : ∀ y ∈ l, matchSingleNode y selector = []) :
    l.foldl (upStep selector) acc = acc := by
  induction l generalizing acc with
  | nil => rfl
  | cons y ys ih =>
    rw [List.foldl_cons, upStep_of_nil acc (h y (by simp))]
    exact ih acc fun z hz => h z (by simp [hz])

theorem updMinFold (f : TreeNode → Pos) (nodes : List TreeNode) (a : Pos) :
    ∃ m, nodes.foldl (fun acc n => updMin acc (f n)) (some a) = some m ∧
      m.le a ∧ (∀ n ∈ nodes, m.le (f n)) ∧ (m = a ∨ ∃ n ∈ nodes, f n = m) := by
  induction nodes generalizing a with
  | nil => exact ⟨a, rfl, Pos.le_refl a, by simp, Or.inl rfl⟩
  | cons n rest ih =>
    simp only [List.foldl_cons]
    rcases hb : (f n).isBefore a with _ | _
    · rw [show updMin (some a) (f n) = some a from by simp [updMin, hb]]
      obtain ⟨m, hm, hle, hall, hatt⟩ := ih a
      have hna : a.le (f n) := Pos.le_of_not_isBefore hb
      refine ⟨m, hm, hle, fun n' hn' => ?_, ?_⟩
      · rcases List.mem_cons.mp hn' with rfl | hn'
        · exact Pos.le_trans hle hna
        · exact hall n' hn'
      · rcases hatt with rfl | ⟨n', hn', he⟩
        · exact Or.inl rfl
        · exact Or.inr ⟨n', by simp [hn'], he⟩
    · rw [show updMin (some a) (f n) = some (f n) from by simp [updMin, hb]]
      obtain ⟨m, hm, hle, hall, hatt⟩ := ih (f n)
      have hna : (f n).le a := Pos.le_of_isBefore hb
      refine ⟨m, hm, Pos.le_trans hle hna, fun n' hn' => ?_, ?_⟩
      · rcases List.mem_cons.mp hn' with rfl | hn'
        · exact hle
        · exact hall n' hn'
      · rcases hatt with rfl | ⟨n', hn', he⟩
        · exact Or.inr ⟨n, by simp, rfl⟩
        · exact Or.inr ⟨n', by simp [hn'], he⟩

theorem updMaxFold (f : TreeNode → Pos) (nodes : List TreeNode) (a : Pos) :
    ∃ m, nodes.foldl (fun acc n => updMax acc (f n)) (some a) = some m ∧
      a.le m ∧ (∀ n ∈ nodes, (f n).le m) ∧ (m = a ∨ ∃ n ∈ nodes, f n = m) := by
  induction nodes generalizing a with
  | nil => exact ⟨a, rfl, Pos.le_refl a, by simp, Or.inl rfl⟩
  | cons n rest ih =>
    simp only [List.foldl_cons]
    rcases hb : (f n).isAfter a with _ | _
    · rw [show updMax (some a) (f n) = some a from by simp [updMax, hb]]
      obtain ⟨m, hm, hle, hall, hatt⟩ := ih a
      have hna : (f n).le a := Pos.le_of_not_isAfter hb
      refine ⟨m, hm, hle, fun n' hn' => ?_, ?_⟩
      · rcases List.mem_cons.mp hn' with rfl | hn'
        · exact Pos.le_trans hna hle
        · exact hall n' hn'
      · rcases hatt with rfl | ⟨n', hn', he⟩
        · exact Or.inl rfl
        · exact Or.inr ⟨n', by simp [hn'], he⟩
    · rw [show updMax (some a) (f n) = some (f n) from by simp [updMax, hb]]
      obtain ⟨m, hm, hle, hall, hatt⟩ := ih (f n)
      have hna : a.le (f n) := Pos.le_of_isAfter hb
      refine ⟨m, hm, Pos.le_trans hna hle, fun n' hn' => ?_, ?_⟩
      · rcases List.mem_cons.mp hn' with rfl | hn'
        · exact hle
        · exact hall n' hn'
      · rcases hatt with rfl | ⟨n', hn', he⟩
        · exact Or.inr ⟨n, by simp, rfl⟩
        · exact Or.inr ⟨n', by simp [hn'], he⟩

theorem selFold_pair (reverse : Bool) (nodes : List TreeNode) (oa ob : Option Pos) :
    nodes.foldl (selStep reverse) (oa, ob) =
      (if reverse then
        (nodes.foldl (fun acc n => updMax acc n.endPosition) oa,
         nodes.foldl (fun acc n => updMin acc n.startPosition) ob)
       else
        (nodes.foldl (fun acc n => updMin acc n.startPosition) oa,
         nodes.foldl (fun acc n => updMax acc n.endPosition) ob)) := by
  induction nodes generalizing oa ob with
  | nil => cases reverse <;> rfl
  | cons n rest ih =>
    cases reverse <;>
      simp only [List.foldl_cons, selStep, if_true, if_false, Bool.false_eq_true] <;>
      rw [ih] <;> simp

/-- Characterisation of `selectionFromNodeArray` on non-empty input: it succeeds, and
the bounding start (`active` with `reverse`, `anchor` without) is the minimal start
position of the nodes while the bounding end is the maximal end position, both
attained by some node of the list. -/
theorem selectionFromNodeArray_char (nodes : List TreeNode) (reverse : Bool)
    (h : nodes ≠ []) :
    ∃ s, selectionFromNodeArray nodes reverse = .ok s ∧
      (∀ n ∈ nodes, (if reverse then s.active else s.anchor).le n.startPosition ∧
          n.endPosition.le (if reverse then s.anchor else s.active)) ∧
      (∃ n ∈ nodes, n.startPosition = (if reverse then s.active else s.anchor)) ∧
      (∃ n ∈ nodes, n.endPosition = (if reverse then s.anchor else s.active)) := by
  obtain ⟨n0, rest, rfl⟩ := List.exists_cons_of_ne_nil h
  rw [selectionFromNodeArray, selFold_pair]
  cases reverse
  · simp only [if_false, Bool.false_eq_true, List.foldl_cons]
    rw [show updMin none n0.startPosition = some n0.startPosition from rfl,
      show updMax none n0.endPosition = some n0.endPosition from rfl]
    obtain ⟨m1, hm1, hle1, hall1, hatt1⟩ := updMinFold TreeNode.startPosition rest
      n0.startPosition
    obtain ⟨m2, hm2, hle2, hall2, hatt2⟩ := updMaxFold TreeNode.endPosition rest
      n0.endPosition
    rw [hm1, hm2]
    refine ⟨⟨m1, m2⟩, rfl, fun n hn => ?_, ?_, ?_⟩
    · rcases List.mem_cons.mp hn with rfl | hn
      · exact ⟨hle1, hle2⟩
      · exact ⟨hall1 n hn, hall2 n hn⟩
    · rcases hatt1 with rfl | ⟨n', hn', he⟩
      · exact ⟨n0, by simp⟩
      · exact ⟨n', by simp [hn'], he⟩
    · rcases hatt2 with rfl | ⟨n', hn', he⟩
      · exact ⟨n0, by simp⟩
      · exact ⟨n', by simp [hn'], he⟩
  · simp only [if_true, List.foldl_cons]
    rw [show updMax none n0.endPosition = some n0.endPosition from rfl,
      show updMin none n0.startPosition = some n0.startPosition from rfl]
    obtain ⟨m2, hm2, hle2, hall2, hatt2⟩ := updMaxFold TreeNode.endPosition rest
      n0.endPosition
    obtain ⟨m1, hm1, hle1, hall1, hatt1⟩ := updMinFold TreeNode.startPosition rest
      n0.startPosition
    rw [hm1, hm2]
    refine ⟨⟨m2, m1⟩, rfl, fun n hn => ?_, ?_, ?_⟩
    · rcases List.mem_cons.mp hn with rfl | hn
      · exact ⟨hle1, hle2⟩
      · exact ⟨hall1 n hn, hall2 n hn⟩
    · rcases hatt1 with rfl | ⟨n', hn', he⟩
      · exact ⟨n0, by simp⟩
      · exact ⟨n', by simp [hn'], he⟩
    · rcases hatt2 with rfl | ⟨n', hn', he⟩
      · exact ⟨n0, by simp⟩
      · exact ⟨n', by simp [hn'], he⟩

/-- C7: for every tree and position, when `findNodeAtPosition` returns a node, that
node's span contains the position inclusively on both ends under row-then-column
ordering, and no node below it (in its children's subtrees) contains the position —
it is the most deeply nested containing node, the first hit of the children-first
(post-order) traversal. -/
theorem findNodeAtPosition_deepest_containing (position : Pos) (root n : TreeNode)
    (h : findNodeAtPosition position root = some n) :
    (n.startPosition.le position ∧ position.le n.endPosition) ∧
      ∀ m ∈ walkChildrenFirstList n.children,
        ¬(m.startPosition.le position ∧ position.le m.endPosition) := by
  obtain ⟨hp, hrest⟩ := find_walkChildrenFirst_deepest
    (fun m => doesNodeContainPosition m position) root n h
  refine ⟨doesNodeContainPosition_iff.mp hp, fun m hm hc => ?_⟩
  have hfalse := hrest m hm
  rw [← doesNodeContainPosition_iff] at hc
  rw [hfalse] at hc
  exact Bool.noConfusion hc

/-- Witness for C7: at position `(0,7)` inside `call[0,0]-[0,20]` containing
`argument[0,5]-[0,10]`, the locator's result is the nested `argument` node: its span
contains the position and nothing below it does. -/
theorem findNodeAtPosition_deepest_containing_witness :
    (exArg.startPosition.le ⟨0, 7⟩ ∧ Pos.le ⟨0, 7⟩ exArg.endPosition) ∧
      ∀ m ∈ walkChildrenFirstList exArg.children,
        ¬(m.startPosition.le ⟨0, 7⟩ ∧ Pos.le ⟨0, 7⟩ m.endPosition) :=
  findNodeAtPosition_deepest_containing ⟨0, 7⟩ exCall exArg (by
    simp [findNodeAtPosition, walkChildrenFirst, walkChildrenFirstList, exCall, exArg,
      doesNodeContainPosition, Pos.isAfterOrEqual, Pos.isBeforeOrEqual,
      TreeNode.startPosition, TreeNode.endPosition])

/-- C8: for every non-empty node list and every `reverse`, `selectionFromNodeArray`
returns the bounding union of the nodes: the bounding start (the `active` end when
`reverse`, the `anchor` otherwise) is below every node's start position and attained
by one of them, and the bounding end (the `anchor` when `reverse`, the `active` end
otherwise) is above every node's end position and attained by one of them. -/
theorem selectionFromNodeArray_bounding_union (nodes : List TreeNode) (reverse : Bool)
    (h : nodes ≠ []) :
    ∃ s, selectionFromNodeArray nodes reverse = .ok s ∧
      (∀ n ∈ nodes, (if reverse then s.active else s.anchor).le n.startPosition ∧
          n.endPosition.le (if reverse then s.anchor else s.active)) ∧
      (∃ n ∈ nodes, n.startPosition = (if reverse then s.active else s.anchor)) ∧
      (∃ n ∈ nodes, n.endPosition = (if reverse then s.anchor else s.active)) :=
  selectionFromNodeArray_char nodes reverse h

/-- Witness for C8: on the concrete two-node list the projection succeeds. -/
theorem selectionFromNodeArray_bounding_union_witness :
    ∃ s, selectionFromNodeArray [q1, q2] false = .ok s := by
  obtain ⟨s, hs, -, -, -⟩ :=
    selectionFromNodeArray_bounding_union [q1, q2] false (by simp)
  exact ⟨s, hs⟩

/-- C9: selection projection fails with the raised error (the spec's
`EmptySelectionError`) exactly on zero nodes, for every value of `reverse`; a
non-empty list never produces the error. -/
theorem selectionFromNodeArray_empty_iff_error (nodes : List TreeNode)
    (reverse : Bool) :
    selectionFromNodeArray nodes reverse =
        .error "At least one node is required for a selection" ↔
      nodes = [] := by
  constructor
  · intro h
    by_contra hne
    obtain ⟨s, hs, -, -, -⟩ := selectionFromNodeArray_char nodes reverse hne
    rw [hs] at h
    exact Except.noConfusion h
  · rintro rfl
    rfl

/-- C10: the selection returned by `selectionFromNodeArray` is invariant under any
permutation of the input list; it depends only on the multiset of nodes supplied. -/
theorem selectionFromNodeArray_perm_invariant (nodes₁ nodes₂ : List TreeNode)
    (reverse : Bool) (h : nodes₁.Perm nodes₂) :
    selectionFromNodeArray nodes₁ reverse = selectionFromNodeArray nodes₂ reverse := by
  rcases eq_or_ne nodes₁ [] with rfl | hne₁
  · rw [← h.nil_eq]
  · have hne₂ : nodes₂ ≠ [] := by
      intro e
      exact hne₁ (by rw [e] at h; exact h.eq_nil)
    obtain ⟨s₁, hs₁, hb₁, hS₁, hE₁⟩ := selectionFromNodeArray_char nodes₁ reverse hne₁
    obtain ⟨s₂, hs₂, hb₂, hS₂, hE₂⟩ := selectionFromNodeArray_char nodes₂ reverse hne₂
    have hSeq : (if reverse then s₁.active else s₁.anchor) =
        (if reverse then s₂.active else s₂.anchor) := by
      obtain ⟨m₁, hm₁, he₁⟩ := hS₁
      obtain ⟨m₂, hm₂, he₂⟩ := hS₂
      apply Pos.le_antisymm
      · rw [← he₂]
        exact (hb₁ m₂ (h.mem_iff.mpr hm₂)).1
      · rw [← he₁]
        exact (hb₂ m₁ (h.mem_iff.mp hm₁)).1
    have hEeq : (if reverse then s₁.anchor else s₁.active) =
        (if reverse then s₂.anchor else s₂.active) := by
      obtain ⟨m₁, hm₁, he₁⟩ := hE₁
      obtain ⟨m₂, hm₂, he₂⟩ := hE₂
      apply Pos.le_antisymm
      · rw [← he₁]
        exact (hb₂ m₁ (h.mem_iff.mp hm₁)).2
      · rw [← he₂]
        exact (hb₁ m₂ (h.mem_iff.mpr hm₂)).2
    have hs : s₁ = s₂ := by
      rcases s₁ with ⟨a₁, c₁⟩
      rcases s₂ with ⟨a₂, c₂⟩
      cases reverse <;> simp_all
    rw [hs₁, hs₂, hs]

/-- Witness for C10: swapping the two nodes of a concrete list leaves the projected
selection unchanged. -/
theorem selectionFromNodeArray_perm_invariant_witness :
    selectionFromNodeArray [q1, q2] false = selectionFromNodeArray [q2, q1] false :=
  selectionFromNodeArray_perm_invariant [q1, q2] [q2, q1] false (List.Perm.swap q2 q1 [])

/-- C1: evaluation of the code at a failing input for the claimed `"down"` behaviour.
The position locator finds the node `exA`, and `exA` — the first node of the
pre-order walk of its own subtree — matches the selector, yet
`searchFromPosition .. "down" ..` returns the empty list: the source assigns the
pre-order `iterFn` but never iterates it and falls through to `return []`. -/
theorem searchDown_always_empty :
    searchFromPosition ⟨0, 0⟩ exA .down (fun _ => true) selA 1 = [] ∧
    findNodeAtPosition ⟨0, 0⟩ exA = some exA ∧
    matchSingleNode exA selA = [some exA] := by
  refine ⟨?_, ?_, ?_⟩ <;>
    simp [searchFromPosition, findNodeAtPositionWithAncestors,
      findNodeAtPositionWithAncestorsList, findNodeAtPosition, walkChildrenFirst,
      walkChildrenFirstList, doesNodeContainPosition, Pos.isAfterOrEqual,
      Pos.isBeforeOrEqual, matchSingleNode, exA, selA, Selector.child,
      Selector.isWildcard, Selector.name, TreeNode.type, TreeNode.startPosition,
      TreeNode.endPosition]

/-- C2 counterexample: in the tree `exRoot2` (type `a`) with child `exChild2`
(type `a`), with the cursor located at the child, both the child and the root match
the selector `a`; the claim says the result is the match of the topmost matching
ancestor — the root — but `searchFromPosition .. "up" ..` returns the child's match,
because `slice(0, -1)` drops the root from the checked chain. -/
theorem searchUp_root_excluded_cex :
    searchFromPosition ⟨0, 1⟩ exRoot2 .up (fun _ => true) selA 1 = [some exChild2] ∧
    matchSingleNode exRoot2 selA = [some exRoot2] ∧
    searchFromPosition ⟨0, 1⟩ exRoot2 .up (fun _ => true) selA 1 ≠
      matchSingleNode exRoot2 selA := by
  have h1 : searchFromPosition ⟨0, 1⟩ exRoot2 .up (fun _ => true) selA 1 =
      [some exChild2] := by
    simp [searchFromPosition, findNodeAtPositionWithAncestors,
      findNodeAtPositionWithAncestorsList, doesNodeContainPosition, Pos.isAfterOrEqual,
      Pos.isBeforeOrEqual, upStep, matchSingleNode, exRoot2, exChild2, selA,
      Selector.child, Selector.isWildcard, Selector.name, TreeNode.type,
      TreeNode.startPosition, TreeNode.endPosition]
  have h2 : matchSingleNode exRoot2 selA = [some exRoot2] := by
    simp [matchSingleNode, exRoot2, exChild2, selA, Selector.child, Selector.isWildcard,
      Selector.name, TreeNode.type]
  refine ⟨h1, h2, ?_⟩
  rw [h1, h2]
  simp [exChild2, exRoot2]

/-- C2 amended: `searchFromPosition` with direction `"up"` attempts the match on the
located node and on its ancestors in outward order, but only along the chain
`[node, ancestors...]` with its outermost element dropped (the tree root, whenever the
located node is a proper descendant of it), and returns the match result of the
topmost element of that shortened chain that matches: if `x` matches and everything
above `x` in the chain fails, the result is `x`'s match. -/
theorem searchUp_topmost_below_root (position : Pos) (root : TreeNode)
    (condition : TreeNode → Bool) (selector : Selector) (node x : TreeNode)
    (ancestors l₁ l₂ : List TreeNode)
    (hfind : findNodeAtPositionWithAncestors position [] root = some (node, ancestors))
    (hsplit : (node :: ancestors).dropLast = l₁ ++ x :: l₂)
    (hx : matchSingleNode x selector ≠ [])
    (habove : ∀ y ∈ l₂, matchSingleNode y selector = []) :
    searchFromPosition position root .up condition selector 1 =
      matchSingleNode x selector := by
  simp only [searchFromPosition, hfind]
  rw [hsplit, List.foldl_append, List.foldl_cons, upStep_of_ne_nil _ hx]
  exact upFold_all_empty selector l₂ _ habove

/-- Witness for C2's amended claim: at the child of `exRoot2` the shortened chain is
just the child, which matches, so the search returns the child's match. -/
theorem searchUp_topmost_below_root_witness :
    searchFromPosition ⟨0, 1⟩ exRoot2 .up (fun _ => true) selA 1 =
      matchSingleNode exChild2 selA :=
  searchUp_topmost_below_root ⟨0, 1⟩ exRoot2 (fun _ => true) selA exChild2 exChild2
    [exRoot2] [] []
    (by
      simp [findNodeAtPositionWithAncestors, findNodeAtPositionWithAncestorsList,
        doesNodeContainPosition, Pos.isAfterOrEqual, Pos.isBeforeOrEqual, exRoot2,
        exChild2, TreeNode.startPosition, TreeNode.endPosition])
    rfl
    (by
      simp [matchSingleNode, exChild2, selA, Selector.child, Selector.isWildcard,
        Selector.name, TreeNode.type])
    (by simp)

/-- C3 counterexample: `altSelA` is an alternation step whose only branch is the leaf
selector `a`, and the branch matches the node `exA` of type `a`; yet
`matchSingleNode` returns the empty result on the alternation step, because the only
test it performs is `selector.isWildcard || selector.name === node.type`. -/
theorem alternation_branch_ignored_cex :
    matchSingleNode exA altSelA = [] ∧ matchSingleNode exA selA = [some exA] := by
  constructor <;>
    simp [matchSingleNode, exA, selA, altSelA, Selector.child, Selector.isWildcard,
      Selector.name, Selector.isOptional, TreeNode.type]

/-- C3 amended: for a leaf step, `matchSingleNode` succeeds (with exactly the node)
precisely when the step is a wildcard or its name equals the node's type tag; the
alternation branches and the negated atom of the step play no part in the test. -/
theorem matchSingleNode_leaf_step_iff (node : TreeNode) (selector : Selector)
    (h : selector.child = none) :
    matchSingleNode node selector =
      if selector.isWildcard || selector.name == some node.type then [some node]
      else [] := by
  rcases selector with ⟨n, w, o, i, sl, m, b, g, ch⟩
  rcases ch with _ | c
  · simp [matchSingleNode, Selector.child, Selector.isWildcard, Selector.name]
  · simp [Selector.child] at h

/-- Witness for C3's amended claim at the node `exA` and leaf selector `a`. -/
theorem matchSingleNode_leaf_step_iff_witness :
    matchSingleNode exA selA =
      if selA.isWildcard || selA.name == some exA.type then [some exA] else [] :=
  matchSingleNode_leaf_step_iff exA selA rfl

/-- C4: evaluation of the code at the failing input. Selector `dictionary.pair[2]`
over the four-pair dictionary picks exactly the third pair, as the claim's example
says, but selector `dictionary.pair[0]` returns all four pairs instead of the first
one: `if (childSelector.index)` is falsy at index `0`, so the reduction step is
skipped. -/
theorem index_zero_not_applied :
    matchSingleNode exDict4 (dictSel (pairSelIdx 2)) = [some p3] ∧
    matchSingleNode exDict4 (dictSel (pairSelIdx 0)) =
      [some p1, some p2, some p3, some p4] := by
  constructor <;>
    simp [matchSingleNode, matchMultipleNodes, gatherChildMatches, firstChildMatch,
      isMultiple, jsGet, exDict4, dictSel, pairSelIdx, p1, p2, p3, p4, Selector.child,
      Selector.isWildcard, Selector.name, Selector.index, Selector.slice,
      Selector.multipleMarked, Selector.isOptional, TreeNode.type, TreeNode.children]

/-- C5: evaluation of the code at the failing inputs. Over the two-pair dictionary,
index `-1` selects the first pair (position `k - 2`) rather than the last
(position `k - 1`), and index `-k = -2` produces the `undefined` slot rather than the
first pair: the normalisation is `matches.length - 1 + index`, one less than the
count-from-the-end convention the claim states. -/
theorem negative_index_off_by_one :
    matchSingleNode exDict2 (dictSel (pairSelIdx (-1))) = [some q1] ∧
    matchSingleNode exDict2 (dictSel (pairSelIdx (-2))) = [none] := by
  constructor <;>
    simp [matchSingleNode, matchMultipleNodes, gatherChildMatches, firstChildMatch,
      isMultiple, jsGet, exDict2, dictSel, pairSelIdx, q1, q2, Selector.child,
      Selector.isWildcard, Selector.name, Selector.index, Selector.slice,
      Selector.multipleMarked, Selector.isOptional, TreeNode.type, TreeNode.children]

/-- C6 counterexample: with index `5` over the two-pair dictionary the normalized
position is out of range, and `matchSingleNode` returns the one-element list holding
the `undefined` slot (`none`) — not the empty list the claim requires. -/
theorem out_of_range_index_cex :
    matchSingleNode exDict2 (dictSel (pairSelIdx 5)) = [none] ∧
    ([none] : List (Option TreeNode)) ≠ [] := by
  refine ⟨?_, by simp⟩
  simp [matchSingleNode, matchMultipleNodes, gatherChildMatches, firstChildMatch,
    isMultiple, jsGet, exDict2, dictSel, pairSelIdx, q1, q2, Selector.child,
    Selector.isWildcard, Selector.name, Selector.index, Selector.slice,
    Selector.multipleMarked, Selector.isOptional, TreeNode.type, TreeNode.children]

/-- C6 amended: whenever the matching parent step chains into a child step whose
non-zero index normalises to a position outside the gathered match list (and no slice
follows), `matchSingleNode` returns the one-element sequence holding the `undefined`
slot (`[none]`), which it propagates to its caller unchanged — not an empty
sequence. -/
theorem matchSingleNode_out_of_range_undefined (parent : TreeNode)
    (ps cs : Selector) (i : Int) (hc : ps.child = some cs)
    (hm : (ps.isWildcard || ps.name == some parent.type) = true)
    (hidx : cs.index = some i) (hi : i ≠ 0) (hs : cs.slice = none)
    (hrange :
      (if i < 0 then ((gatherChildMatches parent.children cs).length : Int) - 1 + i
       else i) < 0 ∨
      ((gatherChildMatches parent.children cs).length : Int) ≤
        (if i < 0 then ((gatherChildMatches parent.children cs).length : Int) - 1 + i
         else i)) :
    matchSingleNode parent ps = [none] := by
  have hmult : isMultiple cs = true := by
    simp [isMultiple, hidx]
  have hj : jsGet (gatherChildMatches parent.children cs)
      (if i < 0 then ((gatherChildMatches parent.children cs).length : Int) - 1 + i
       else i) = none := by
    rcases hrange with hr | hr
    · rw [jsGet, if_neg (Int.not_le.mpr hr)]
    · rw [jsGet, if_pos (by omega)]
      exact List.getD_eq_default _ _ (by omega)
  rcases ps with ⟨n, w, o, idx, sl, mm, br, ng, ch⟩
  rcases ch with _ | c
  · simp [Selector.child] at hc
  · simp only [Selector.child, Option.some.injEq] at hc
    subst hc
    simp only [Selector.isWildcard, Selector.name] at hm
    rw [matchSingleNode]
    simp only [Selector.child, Selector.isWildcard, Selector.name, hm, hmult, if_true]
    rw [matchMultipleNodes]
    simp only [hidx, hs, if_neg hi]
    rw [hj]

/-- Witness for C6's amended claim: index `5` over the two-pair dictionary is out of
range and the matcher returns the singleton `undefined` slot. -/
theorem matchSingleNode_out_of_range_undefined_witness :
    matchSingleNode exDict2 (dictSel (pairSelIdx 5)) = [none] :=
  matchSingleNode_out_of_range_undefined exDict2 (dictSel (pairSelIdx 5))
    (pairSelIdx 5) 5 rfl
    (by simp [dictSel, pairSelIdx, exDict2, Selector.isWildcard, Selector.name,
      TreeNode.type])
    rfl (by omega) rfl
    (by
      have hg : gatherChildMatches exDict2.children (pairSelIdx 5) =
          [some q1, some q2] := by
        simp [gatherChildMatches, matchSingleNode, exDict2, pairSelIdx, q1, q2,
          Selector.child, Selector.isWildcard, Selector.name, TreeNode.type,
          TreeNode.children]
      rw [hg]
      simp)

end EditUtils
